import Mathlib

/-!
Shallow embedding of `mcp/lichess-mcp/server.py` (LichessSharp): the endpoint
reconciliation engine, snapshot differ and query facade, with theorems checking
the natural-language specification against it.

Python dicts are modelled as insertion-ordered association lists with distinct
keys (`Dict`), Python sets as duplicate-free lists built by `setAdd`, and
Python's stable `sorted` as an insertion sort over the code-point order on
strings. Reading files is modelled by passing the parsed content (or `none`
for an absent file) as an argument.
-/

/-- Lexicographic code-point comparison of character lists: Python's `<` on
strings restricted to the data the code compares. -/
def charListLt : List Char → List Char → Bool
  | [], [] => false
  | [], _ :: _ => true
  | _ :: _, [] => false
  | a :: as, b :: bs =>
    if a.toNat < b.toNat then true
    else if b.toNat < a.toNat then false
    else charListLt as bs

/-- Python string comparison `a < b` (lexicographic by code point). -/
def strLt (a b : String) : Bool := charListLt a.data b.data

/-- Python `str.upper()` on the ASCII fragment the code works with. -/
def strUpper (s : String) : String := ⟨s.data.map Char.toUpper⟩

/-- Python `str.lower()` on the ASCII fragment the code works with. -/
def strLower (s : String) : String := ⟨s.data.map Char.toLower⟩

/-- Stable insertion of `a` into `l`, used to model Python's stable `sorted`. -/
def orderedInsertB {α : Type} (le : α → α → Bool) (a : α) : List α → List α
  | [] => [a]
  | b :: l => if le a b then a :: b :: l else b :: orderedInsertB le a l

/-- Python `sorted(l, key=...)`, as a stable insertion sort by `le`. -/
def sortedBy {α : Type} (le : α → α → Bool) : List α → List α
  | [] => []
  | b :: l => orderedInsertB le b (sortedBy le l)

/-- The comparator `sorted` uses on string sort keys. -/
def strLe (a b : String) : Bool := !(strLt b a)

/-- A Python `dict` with string keys: an insertion-ordered association list;
keys stay pairwise distinct when the dict is built with `dictInsert`. -/
abbrev Dict (α : Type) := List (String × α)

/-- Python `d.get(k)` / `d[k]`. -/
def dictGet? {α : Type} (d : Dict α) (k : String) : Option α :=
  (d.find? (fun kv => kv.1 == k)).map (fun kv => kv.2)

/-- Python `k in d`. -/
def dictContains {α : Type} (d : Dict α) (k : String) : Bool :=
  d.any (fun kv => kv.1 == k)

/-- Python `d[k] = v`: replace in place when the key is present (keeping its
position, as CPython dicts do), append otherwise. -/
def dictInsert {α : Type} (d : Dict α) (k : String) (v : α) : Dict α :=
  if dictContains d k then d.map (fun kv => if kv.1 == k then (k, v) else kv)
  else d ++ [(k, v)]

/-- Python `set.add`: append if absent. The set is only sorted or tested for
membership afterwards, so a duplicate-free list is a faithful model. -/
def setAdd (s : List String) (k : String) : List String :=
  if s.contains k then s else s ++ [k]

/-- An OpenAPI operation object, reduced to the fields the server reads.
Fields accessed through `op.get(key, default)` are modelled with the default
standing for an absent key, which the code never distinguishes from an
explicitly defaulted one. `responses` holds the response-code keys of the
`responses` object in document order. -/
structure Operation where
  summary : Option String := none
  description : Option String := none
  tags : List String := []
  deprecated : Bool := false
  parameters : List String := []
  requestBody : Option String := none
  responses : List String := []
deriving DecidableEq, Repr

/-- A path item: a dict from keys to operation objects. Besides the HTTP
methods, OpenAPI path items may carry other keys (`parameters`, `summary`,
...); `diff_openapi_versions` iterates over all of them, while the other
functions index only the recognized methods and never read the values under
other keys, so carrying an `Operation` as the value of every key loses
nothing the code looks at. -/
abbrev PathItem := Dict Operation

/-- An OpenAPI document, reduced to its `paths` dict — the only part of the
document the functions under verification read. -/
structure SpecDoc where
  paths : Dict PathItem
deriving DecidableEq, Repr

/-- Line 28: `_op_key(method, path) = f"{method.upper()} {path}"`. -/
def _op_key (method : String) (path : String) : String :=
  strUpper method ++ " " ++ path

/-- Scanner for `re.sub(r'\x7b[^}]+\x7d', '{param}', path)` (lines 152–160).
Outside a parameter group, text is copied; after a `{` the characters up to
the next `}` are buffered in reverse in `buf`. A closed nonempty group
becomes `{param}`; an empty group (the regex requires at least one non-`}`
character between the braces) or an unclosed `{` is copied verbatim, and
scanning resumes after the `}` respectively at the end — exactly the
non-overlapping left-to-right matches of the regex. -/
def normScan : Option (List Char) → List Char → List Char
  | none, [] => []
  | none, c :: cs => if c = '{' then normScan (some []) cs else c :: normScan none cs
  | some buf, [] => '{' :: buf.reverse
  | some buf, c :: cs =>
    if c = '}' then
      if buf.isEmpty then '{' :: '}' :: normScan none cs
      else "{param}".data ++ normScan none cs
    else normScan (some (c :: buf)) cs

/-- Lines 152–160: `_normalize_path`. -/
def _normalize_path (path : String) : String := ⟨normScan none path.data⟩

/-- Result of `get_operation`: the returned dict has `found: False` with an
error message, or `found: True` with the operation payload. -/
inductive GetOpResult where
  | notFound (error : String)
  | found (key : String) (summary : Option String) (description : Option String)
      (tags : List String) (deprecated : Bool) (parameters : List String)
      (requestBody : Option String) (responseCodes : List String)
deriving DecidableEq, Repr

/-- Lines 57–87: `get_operation(method, path)`. Python's `if not path_item`
treats a missing path and an empty path item alike as `Path not found`;
`if not op` treats a missing operation as `Method not found` (an operation
object that is empty as a dict would also be falsy there; this model's
operation records carry only the defaulted fields the code reads, and none
of the claims depends on that corner). -/
def get_operation (spec : SpecDoc) (method : String) (path : String) : GetOpResult :=
  match dictGet? spec.paths path with
  | none => .notFound ("Path not found: " ++ path)
  | some path_item =>
    if path_item.isEmpty then .notFound ("Path not found: " ++ path)
    else
      match dictGet? path_item (strLower method) with
      | none => .notFound ("Method not found: " ++ strUpper method ++ " " ++ path)
      | some op =>
        .found (_op_key method path) op.summary op.description op.tags op.deprecated
          op.parameters op.requestBody (sortedBy strLe op.responses)

/-- One element of the `operations` list returned by `list_operations`. -/
structure ListedOp where
  key : String
  summary : Option String
  tags : List String
  deprecated : Bool
deriving DecidableEq, Repr

/-- Return value of `list_operations`. -/
structure ListResult where
  count : Nat
  operations : List ListedOp
deriving DecidableEq, Repr

/-- Line 100: the fixed list of recognized HTTP methods. -/
def recognizedMethods : List String :=
  ["get", "post", "put", "delete", "patch", "head", "options"]

/-- Line 106: `if tag and tag not in tags: continue`. Python truthiness makes
both `None` and the empty string skip the filter. -/
def tagSkip (tag : Option String) (tags : List String) : Bool :=
  match tag with
  | none => false
  | some t => if t == "" then false else !(tags.contains t)

/-- Lines 90–116: `list_operations(tag, include_deprecated)`. -/
def list_operations (spec : SpecDoc) (tag : Option String) (include_deprecated : Bool) :
    ListResult :=
  let ops := spec.paths.foldl (fun acc pi =>
    recognizedMethods.foldl (fun acc method =>
      match dictGet? pi.2 method with
      | none => acc
      | some op =>
        if !include_deprecated && op.deprecated then acc
        else if tagSkip tag op.tags then acc
        else acc ++ [⟨_op_key method pi.1, op.summary, op.tags, op.deprecated⟩]) acc) []
  let sortedOps := sortedBy (fun a b => strLe a.key b.key) ops
  ⟨sortedOps.length, sortedOps⟩

/-- Line 125: the snapshot filename for a version string. -/
def snapshotName (version : String) : String :=
  "lichess.openapi." ++ version ++ ".json"

/-- Result of `diff_openapi_versions`: `ok: False` with an error, or `ok: True`
with the two version strings and the added/removed key lists. -/
inductive DiffResult where
  | err (error : String)
  | ok (fromVersion toVersion : String) (added removed : List String)
deriving DecidableEq, Repr

/-- Lines 136–141: the `collect` closure. Note that it iterates `item.keys()`,
taking every key of each path item, with no restriction to the recognized
HTTP methods. -/
def collect (spec : SpecDoc) : List String :=
  spec.paths.foldl (fun out pi =>
    pi.2.foldl (fun out kv => setAdd out (_op_key kv.1 pi.1)) out) []

/-- Python set difference `a - b` on duplicate-free lists. -/
def setDiffList (a b : List String) : List String :=
  a.filter (fun k => !(b.contains k))

/-- Lines 133–149: the pure part of `diff_openapi_versions` once both snapshot
documents are loaded: `added = sorted(ops_b - ops_a)`,
`removed = sorted(ops_a - ops_b)`. -/
def diffDocs (spec_a spec_b : SpecDoc) : List String × List String :=
  (sortedBy strLe (setDiffList (collect spec_b) (collect spec_a)),
   sortedBy strLe (setDiffList (collect spec_a) (collect spec_b)))

/-- Lines 119–149: `diff_openapi_versions(from_version, to_version)`. The
snapshot directory is modelled as a store from version string to document;
`none` models a missing snapshot file (`not a.exists()`). -/
def diff_openapi_versions (store : String → Option SpecDoc)
    (from_version to_version : String) : DiffResult :=
  match store from_version with
  | none => .err ("Snapshot not found: " ++ snapshotName from_version)
  | some spec_a =>
    match store to_version with
    | none => .err ("Snapshot not found: " ++ snapshotName to_version)
    | some spec_b =>
      .ok from_version to_version (diffDocs spec_a spec_b).1 (diffDocs spec_a spec_b).2

/-- One value of the dict returned by `_parse_implemented_endpoints`:
`{"api": m[2], "method": m[3], "path": m[1]}`. -/
structure ImplInfo where
  api : String
  method : String
  path : String
deriving DecidableEq, Repr

/-- A 4-field tuple matched by the registry regex: `(m[0], m[1], m[2], m[3])`. -/
abbrev RegTuple := String × String × String × String

/-- Lines 163–176: `_parse_implemented_endpoints()`. The registry source is
the `re.findall` result over `ImplementedEndpoints.cs`: `none` models the
file being absent (the function then returns `{}` without error), `some ms`
the matched tuples in file order; the dict comprehension keyed by
`f"{m[0]} {m[1]}"` is a sequence of inserts, later duplicates overwriting. -/
def _parse_implemented_endpoints (src : Option (List RegTuple)) : Dict ImplInfo :=
  match src with
  | none => []
  | some ms =>
    ms.foldl (fun d m => dictInsert d (m.1 ++ " " ++ m.2.1) ⟨m.2.2.1, m.2.2.2, m.2.1⟩) []

/-- One record of the `openapi_ops` dict (lines 202–210). -/
structure OpRecord where
  key : String
  path : String
  method : String
  summary : Option String
  tags : List String
  deprecated : Bool
  normalizedPath : String
deriving DecidableEq, Repr

/-- Lines 194–210: the `openapi_ops` dict of `get_coverage_gaps`. -/
def openapiOps (spec : SpecDoc) (include_deprecated : Bool) : Dict OpRecord :=
  spec.paths.foldl (fun d pi =>
    recognizedMethods.foldl (fun d method =>
      match dictGet? pi.2 method with
      | none => d
      | some op =>
        if !include_deprecated && op.deprecated then d
        else
          dictInsert d (_op_key method pi.1)
            ⟨_op_key method pi.1, pi.1, strUpper method, op.summary, op.tags,
             op.deprecated, _normalize_path pi.1⟩) d) []

/-- Python `key.split(" ", 1)` unpacked to `(method, path)`. Every key this
is applied to has the form `"METHOD PATH"`, so a first space exists; on a
space-free string this model returns `(s, "")` (Python would raise on the
unpacking, but no such key arises in the program). -/
def splitFirstSpace (s : String) : String × String :=
  (⟨s.data.takeWhile (fun c => !(c == ' '))⟩,
   ⟨(s.data.dropWhile (fun c => !(c == ' '))).tail⟩)

/-- Lines 216–220: the `impl_normalized` lookup, keyed by
`f"{method} {_normalize_path(path)}"` with `method, path = key.split(" ", 1)`;
on key collisions the last write wins. -/
def implNormalized (implemented : Dict ImplInfo) : Dict String :=
  implemented.foldl (fun d kv =>
    dictInsert d ((splitFirstSpace kv.1).1 ++ " " ++ _normalize_path (splitFirstSpace kv.1).2)
      kv.1) []

/-- One entry of the `missing` list (lines 243–248). -/
structure MissingEntry where
  key : String
  summary : Option String
  tags : List String
  deprecated : Bool
deriving DecidableEq, Repr

/-- One entry of the `pathVariations` list (lines 236–241). -/
structure VariationEntry where
  openapi : String
  implemented : String
  summary : Option String
  tags : List String
deriving DecidableEq, Repr

/-- One entry of the `extra` list (lines 259–263). -/
structure ExtraEntry where
  key : String
  api : String
  method : String
deriving DecidableEq, Repr

/-- The `stats` dict (lines 266–272). -/
structure CoverageStats where
  openApiTotal : Nat
  implementedTotal : Nat
  missingCount : Nat
  pathVariationsCount : Nat
  extraCount : Nat
deriving DecidableEq, Repr

/-- Return value of `get_coverage_gaps` (lines 265–276). -/
structure CoverageResult where
  stats : CoverageStats
  missing : List MissingEntry
  pathVariations : List VariationEntry
  extra : List ExtraEntry
deriving DecidableEq, Repr

/-- The normalized key an OpenAPI record is matched under (line 232). -/
def normKeyOfOp (op : OpRecord) : String :=
  op.method ++ " " ++ op.normalizedPath

/-- Lines 226–248, `missing` branch: operations with no exact and no
normalized implemented match, in iteration order. The Python loop appends to
`missing` exactly when neither `continue` nor the variation branch fires. -/
def missingOf (implemented : Dict ImplInfo) (impl_normalized : Dict String)
    (ops : Dict OpRecord) : List MissingEntry :=
  ops.filterMap (fun kv =>
    if dictContains implemented kv.1 then none
    else
      match dictGet? impl_normalized (normKeyOfOp kv.2) with
      | some _ => none
      | none => some ⟨kv.1, kv.2.summary, kv.2.tags, kv.2.deprecated⟩)

/-- Lines 226–241, `path_variations` branch: operations with no exact match
whose normalized key finds an implemented record, in iteration order. -/
def variationsOf (implemented : Dict ImplInfo) (impl_normalized : Dict String)
    (ops : Dict OpRecord) : List VariationEntry :=
  ops.filterMap (fun kv =>
    if dictContains implemented kv.1 then none
    else
      match dictGet? impl_normalized (normKeyOfOp kv.2) with
      | some impl_key => some ⟨kv.1, impl_key, kv.2.summary, kv.2.tags⟩
      | none => none)

/-- Line 252: the set of normalized keys of all OpenAPI operations; only
membership is ever tested, so a list models the set comprehension. -/
def openapiNormalizedOf (ops : Dict OpRecord) : List String :=
  ops.map (fun kv => normKeyOfOp kv.2)

/-- The normalized key an implemented record is matched under in the extra
loop (lines 256–257), identical to the one used for `impl_normalized`. -/
def normKeyOfImpl (key : String) : String :=
  (splitFirstSpace key).1 ++ " " ++ _normalize_path (splitFirstSpace key).2

/-- Lines 250–263: the `extra` list — implemented records absent from the
OpenAPI index both exactly and after normalization. -/
def extraOf (implemented : Dict ImplInfo) (ops : Dict OpRecord)
    (openapi_normalized : List String) : List ExtraEntry :=
  implemented.filterMap (fun kv =>
    if dictContains ops kv.1 then none
    else if openapi_normalized.contains (normKeyOfImpl kv.1) then none
    else some ⟨kv.1, kv.2.api, kv.2.method⟩)

/-- Lines 179–276: `get_coverage_gaps(include_deprecated)`, over the spec
document and the registry source. -/
def get_coverage_gaps (spec : SpecDoc) (registry : Option (List RegTuple))
    (include_deprecated : Bool) : CoverageResult :=
  let openapi_ops := openapiOps spec include_deprecated
  let implemented := _parse_implemented_endpoints registry
  let impl_normalized := implNormalized implemented
  let missing := missingOf implemented impl_normalized openapi_ops
  let path_variations := variationsOf implemented impl_normalized openapi_ops
  let openapi_normalized := openapiNormalizedOf openapi_ops
  let extra := extraOf implemented openapi_ops openapi_normalized
  ⟨⟨openapi_ops.length, implemented.length, missing.length, path_variations.length,
    extra.length⟩,
   sortedBy (fun a b => strLe a.key b.key) missing,
   sortedBy (fun a b => strLe a.openapi b.openapi) path_variations,
   sortedBy (fun a b => strLe a.key b.key) extra⟩

/-- Uncurried `dictInsert`: the step of every dict-building loop. -/
def insKV {α : Type} (d : Dict α) (kv : String × α) : Dict α := dictInsert d kv.1 kv.2

/-- The element `openapi_ops` gains from path item `pi` and `method`: `none`
when the method is absent or filtered as deprecated, otherwise the key/record
pair inserted at lines 201–210. -/
def opSel (include_deprecated : Bool) (pi : String × PathItem) (method : String) :
    Option (String × OpRecord) :=
  match dictGet? pi.2 method with
  | none => none
  | some op =>
    if !include_deprecated && op.deprecated then none
    else some (_op_key method pi.1,
      ⟨_op_key method pi.1, pi.1, strUpper method, op.summary, op.tags, op.deprecated,
       _normalize_path pi.1⟩)

/-- The key/record pairs inserted into `openapi_ops`, in loop order. -/
def opPairs (spec : SpecDoc) (include_deprecated : Bool) : List (String × OpRecord) :=
  spec.paths.flatMap (fun pi => recognizedMethods.filterMap (opSel include_deprecated pi))

/-- The key/value pairs of the `_parse_implemented_endpoints` comprehension. -/
def implPairs (ms : List RegTuple) : List (String × ImplInfo) :=
  ms.map (fun m => (m.1 ++ " " ++ m.2.1, ⟨m.2.2.1, m.2.2.2, m.2.1⟩))

/-- The key/value pairs inserted into `impl_normalized`, in loop order. -/
def implNormPairs (implemented : Dict ImplInfo) : List (String × String) :=
  implemented.map (fun kv =>
    ((splitFirstSpace kv.1).1 ++ " " ++ _normalize_path (splitFirstSpace kv.1).2, kv.1))

/-- Exactly one of three propositions holds. -/
def exactlyOne (a b c : Prop) : Prop :=
  (a ∧ ¬b ∧ ¬c) ∨ (¬a ∧ b ∧ ¬c) ∨ (¬a ∧ ¬b ∧ c)

/-- The operation key `k` is formed (uppercased) from some key actually present
in a path item of `doc`. -/
def keyFromDoc (doc : SpecDoc) (k : String) : Prop :=
  ∃ pi ∈ doc.paths, ∃ kv ∈ pi.2, k = _op_key kv.1 pi.1

/-- The entry `list_operations` gains from path item `pi` and `method`. -/
def listedSel (tag : Option String) (incl : Bool) (pi : String × PathItem)
    (method : String) : Option ListedOp :=
  match dictGet? pi.2 method with
  | none => none
  | some op =>
    if !incl && op.deprecated then none
    else if tagSkip tag op.tags then none
    else some ⟨_op_key method pi.1, op.summary, op.tags, op.deprecated⟩

/-- The unsorted operations list of `list_operations`, flattened. -/
def listedFlat (spec : SpecDoc) (tag : Option String) (incl : Bool) : List ListedOp :=
  spec.paths.flatMap (fun pi => recognizedMethods.filterMap (listedSel tag incl pi))

/-! ### Sorting: permutation facts about `sortedBy` -/

theorem orderedInsertB_perm {α : Type} (le : α → α → Bool) (a : α) (l : List α) :
    List.Perm (orderedInsertB le a l) (a :: l) := by
  induction l with
  | nil => rfl
  | cons b l ih =>
    simp only [orderedInsertB]
    split
    · exact List.Perm.refl _
    · exact (ih.cons b).trans (List.Perm.swap a b l)

theorem sortedBy_perm {α : Type} (le : α → α → Bool) (l : List α) :
    List.Perm (sortedBy le l) l := by
  induction l with
  | nil => rfl
  | cons b l ih =>
    exact (orderedInsertB_perm le b (sortedBy le l)).trans (ih.cons b)

theorem sortedBy_length {α : Type} (le : α → α → Bool) (l : List α) :
    (sortedBy le l).length = l.length :=
  (sortedBy_perm le l).length_eq

theorem sortedBy_mem {α : Type} (le : α → α → Bool) (a : α) (l : List α) :
    a ∈ sortedBy le l ↔ a ∈ l :=
  (sortedBy_perm le l).mem_iff

/-! ### Path normalization: structure of `normScan` -/

theorem normScan_none_cons (c : Char) (cs : List Char) :
    normScan none (c :: cs) =
      if c = '{' then normScan (some []) cs else c :: normScan none cs := rfl

theorem normScan_some_cons (buf : List Char) (c : Char) (cs : List Char) :
    normScan (some buf) (c :: cs) =
      if c = '}' then
        if buf.isEmpty then '{' :: '}' :: normScan none cs
        else "{param}".data ++ normScan none cs
      else normScan (some (c :: buf)) cs := rfl

theorem normScan_some_no_close (buf : List Char) (l : List Char) (h : '}' ∉ l) :
    normScan (some buf) l = '{' :: buf.reverse ++ l := by
  induction l generalizing buf with
  | nil => simp [normScan]
  | cons c cs ih =>
    have hc : ¬(c = '}') := fun hc => h (hc ▸ List.mem_cons_self c cs)
    have hcs : '}' ∉ cs := fun hm => h (List.mem_cons_of_mem c hm)
    rw [normScan_some_cons, if_neg hc, ih (c :: buf) hcs]
    simp

theorem normScan_none_no_close (l : List Char) (h : '}' ∉ l) :
    normScan none l = l := by
  induction l with
  | nil => rfl
  | cons c cs ih =>
    have hcs : '}' ∉ cs := fun hm => h (List.mem_cons_of_mem c hm)
    by_cases hc : c = '{'
    · subst hc
      rw [normScan_none_cons, if_pos rfl, normScan_some_no_close [] cs hcs]
      simp
    · rw [normScan_none_cons, if_neg hc, ih hcs]

theorem normScan_some_split (buf pre post : List Char) (h : '}' ∉ pre) :
    normScan (some buf) (pre ++ '}' :: post) =
      if (pre.reverse ++ buf).isEmpty then '{' :: '}' :: normScan none post
      else "{param}".data ++ normScan none post := by
  induction pre generalizing buf with
  | nil =>
    rw [List.nil_append, normScan_some_cons, if_pos rfl]
    simp
  | cons c pre ih =>
    have hc : ¬(c = '}') := fun hc => h (hc ▸ List.mem_cons_self c pre)
    have hpre : '}' ∉ pre := fun hm => h (List.mem_cons_of_mem c hm)
    rw [List.cons_append, normScan_some_cons, if_neg hc, ih (c :: buf) hpre]
    have h1 : ¬((pre.reverse ++ c :: buf).isEmpty = true) := by simp
    have h2 : ¬(((c :: pre).reverse ++ buf).isEmpty = true) := by simp
    rw [if_neg h1, if_neg h2]

theorem normScan_param_step (rest : List Char) :
    normScan none ('{' :: 'p' :: 'a' :: 'r' :: 'a' :: 'm' :: '}' :: rest) =
      '{' :: 'p' :: 'a' :: 'r' :: 'a' :: 'm' :: '}' :: normScan none rest := by
  rw [normScan_none_cons, if_pos rfl]
  rw [show ('p' :: 'a' :: 'r' :: 'a' :: 'm' :: '}' :: rest)
        = ['p', 'a', 'r', 'a', 'm'] ++ '}' :: rest from rfl]
  rw [normScan_some_split [] ['p', 'a', 'r', 'a', 'm'] rest (by decide)]
  simp

theorem exists_first_close (l : List Char) (h : '}' ∈ l) :
    ∃ pre post, l = pre ++ '}' :: post ∧ '}' ∉ pre := by
  induction l with
  | nil => cases h
  | cons c cs ih =>
    by_cases hc : c = '}'
    · exact ⟨[], cs, by simp [hc], by simp⟩
    · have hcs : '}' ∈ cs := by
        rcases List.mem_cons.mp h with h1 | h2
        · exact absurd h1.symm hc
        · exact h2
      obtain ⟨pre, post, heq, hpre⟩ := ih hcs
      exact ⟨c :: pre, post, by simp [heq], by simp [hpre, Ne.symm, hc]⟩

theorem param_data_eq : "{param}".data = ['{', 'p', 'a', 'r', 'a', 'm', '}'] := rfl

theorem normScan_idem_aux : ∀ (n : Nat) (l : List Char), l.length ≤ n →
    normScan none (normScan none l) = normScan none l := by
  intro n
  induction n with
  | zero =>
    intro l hl
    have : l = [] := List.length_eq_zero.mp (Nat.le_zero.mp hl)
    subst this
    rfl
  | succ n ih =>
    intro l hl
    match l with
    | [] => rfl
    | c :: cs =>
      have hcs : cs.length ≤ n := by simpa using hl
      by_cases hc : c = '{'
      · subst hc
        rw [normScan_none_cons, if_pos rfl]
        by_cases hmem : '}' ∈ cs
        · obtain ⟨pre, post, heq, hpre⟩ := exists_first_close cs hmem
          subst heq
          have hpost : post.length ≤ n := by
            simp only [List.length_append, List.length_cons] at hcs
            omega
          rw [normScan_some_split [] pre post hpre]
          by_cases hpre0 : pre = []
          · subst hpre0
            have c1 : ((([] : List Char).reverse ++ []).isEmpty) = true := rfl
            rw [if_pos c1]
            rw [normScan_none_cons, if_pos rfl, normScan_some_cons, if_pos rfl]
            have c2 : (([] : List Char).isEmpty) = true := rfl
            rw [if_pos c2, ih post hpost]
          · have hne : ¬(((pre.reverse ++ ([] : List Char)).isEmpty) = true) := by
              simp [hpre0]
            rw [if_neg hne, param_data_eq]
            rw [show (['{', 'p', 'a', 'r', 'a', 'm', '}'] ++ normScan none post)
                  = ('{' :: 'p' :: 'a' :: 'r' :: 'a' :: 'm' :: '}' :: normScan none post)
                from rfl]
            rw [normScan_param_step, ih post hpost]
        · have hno : '}' ∉ '{' :: cs := by
            intro hm
            rcases List.mem_cons.mp hm with h' | h'
            · exact absurd h' (by decide)
            · exact hmem h'
          rw [normScan_some_no_close [] cs hmem]
          have e : ('{' :: ([] : List Char).reverse ++ cs) = '{' :: cs := by simp
          rw [e]
          exact normScan_none_no_close _ hno
      · rw [normScan_none_cons, if_neg hc]
        rw [normScan_none_cons, if_neg hc]
        rw [ih cs hcs]

/-- C4: `_normalize_path` is idempotent. -/
theorem c4_normalize_idempotent (p : String) :
    _normalize_path (_normalize_path p) = _normalize_path p :=
  congrArg String.mk (normScan_idem_aux p.data.length p.data (Nat.le_refl _))

/-- C9: snapshot diffing is symmetric under argument swap — `added` of
`diff(A,B)` equals `removed` of `diff(B,A)` and vice versa, for every pair of
snapshot documents. -/
theorem c9_diff_symmetry (A B : SpecDoc) :
    (diffDocs A B).1 = (diffDocs B A).2 ∧ (diffDocs A B).2 = (diffDocs B A).1 :=
  ⟨rfl, rfl⟩

/-! ### Dict lemmas -/

theorem find?_key_eq_none_of_not_contains {α : Type} (d : Dict α) (k : String)
    (h : dictContains d k = false) : d.find? (fun kv => kv.1 == k) = none := by
  rw [List.find?_eq_none]
  intro kv hkv hp
  have : dictContains d k = true := by
    unfold dictContains
    rw [List.any_eq_true]
    exact ⟨kv, hkv, hp⟩
  rw [this] at h
  cases h

theorem find?_map_replace {α : Type} (d : Dict α) (k : String) (v : α) (k' : String) :
    (d.map (fun kv => if kv.1 == k then (k, v) else kv)).find? (fun kv => kv.1 == k') =
      if k' = k then ((d.find? (fun kv => kv.1 == k)).map (fun _ => (k, v)))
      else d.find? (fun kv => kv.1 == k') := by
  induction d with
  | nil => by_cases h : k' = k <;> simp [h]
  | cons x xs ih =>
    by_cases hx : x.1 = k <;> by_cases hk : k' = k <;> by_cases hxk : x.1 = k' <;>
      simp_all [List.find?_cons, beq_iff_eq]

theorem dictGet?_dictInsert {α : Type} (d : Dict α) (k : String) (v : α) (k' : String) :
    dictGet? (dictInsert d k v) k' = if k' = k then some v else dictGet? d k' := by
  unfold dictInsert dictGet?
  by_cases hc : dictContains d k = true
  · rw [if_pos hc, find?_map_replace]
    by_cases hk : k' = k
    · rw [if_pos hk, if_pos hk]
      rcases h : d.find? (fun kv => kv.1 == k) with _ | kv
      · exfalso
        unfold dictContains at hc
        rw [List.any_eq_true] at hc
        obtain ⟨kv, hkv, hp⟩ := hc
        rw [List.find?_eq_none] at h
        exact h kv hkv hp
      · rw [h]
        rfl
    · rw [if_neg hk, if_neg hk]
  · rw [if_neg hc, List.find?_append]
    have hnone := find?_key_eq_none_of_not_contains d k (by
      cases h : dictContains d k
      · rfl
      · exact absurd h hc)
    by_cases hk : k' = k
    · subst hk
      rw [hnone]
      simp
    · rw [if_neg hk]
      have : List.find? (fun kv => kv.1 == k') [(k, v)] = none := by
        simp [beq_iff_eq]
        exact fun h => hk h.symm
      rw [this, Option.or_none]


theorem dictGet?_foldl_insKV {α : Type} (l : List (String × α)) (d : Dict α) (k : String) :
    dictGet? (l.foldl insKV d) k =
      ((l.reverse.find? (fun kv => kv.1 == k)).map (fun kv => kv.2)).or (dictGet? d k) := by
  induction l generalizing d with
  | nil => simp
  | cons x xs ih =>
    rw [List.foldl_cons, ih, List.reverse_cons, List.find?_append]
    have hins : dictGet? (insKV d x) k = if k = x.1 then some x.2 else dictGet? d k :=
      dictGet?_dictInsert d x.1 x.2 k
    rw [hins]
    rcases hfind : xs.reverse.find? (fun kv => kv.1 == k) with _ | kv
    · by_cases hk : k = x.1
      · subst hk
        have h1 : [x].find? (fun kv => kv.1 == x.1) = some x := by simp
        simp [h1, hfind]
      · have h1 : [x].find? (fun kv => kv.1 == k) = none := by
          simp [beq_iff_eq]
          exact fun h => hk h.symm
        simp [h1, hfind, hk]
    · simp [hfind]

theorem dictContains_iff {α : Type} (d : Dict α) (k : String) :
    dictContains d k = true ↔ ∃ v, (k, v) ∈ d := by
  unfold dictContains
  rw [List.any_eq_true]
  constructor
  · rintro ⟨⟨k1, v1⟩, hm, hp⟩
    have : k1 = k := beq_iff_eq.mp hp
    subst this
    exact ⟨v1, hm⟩
  · rintro ⟨v, hm⟩
    exact ⟨(k, v), hm, beq_iff_eq.mpr rfl⟩

theorem dictContains_eq_false {α : Type} (d : Dict α) (k : String) :
    dictContains d k = false ↔ ∀ v, (k, v) ∉ d := by
  constructor
  · intro h v hv
    have ht : dictContains d k = true := (dictContains_iff d k).mpr ⟨v, hv⟩
    rw [h] at ht
    cases ht
  · intro h
    cases hc : dictContains d k
    · rfl
    · obtain ⟨v, hv⟩ := (dictContains_iff d k).mp hc
      exact absurd hv (h v)

theorem keys_dictInsert {α : Type} (d : Dict α) (k : String) (v : α) :
    (dictInsert d k v).map Prod.fst =
      if dictContains d k then d.map Prod.fst else d.map Prod.fst ++ [k] := by
  unfold dictInsert
  by_cases hc : dictContains d k = true
  · rw [if_pos hc, if_pos hc, List.map_map]
    apply List.map_congr_left
    intro kv _
    by_cases hkv : kv.1 = k
    · simp [beq_iff_eq, hkv]
    · simp [beq_iff_eq, hkv]
  · rw [if_neg hc, if_neg hc, List.map_append]
    rfl

theorem keysNodup_dictInsert {α : Type} (d : Dict α) (k : String) (v : α)
    (h : (d.map Prod.fst).Nodup) : ((dictInsert d k v).map Prod.fst).Nodup := by
  rw [keys_dictInsert]
  by_cases hc : dictContains d k = true
  · rwa [if_pos hc]
  · rw [if_neg hc]
    have hk : k ∉ d.map Prod.fst := by
      intro hmem
      obtain ⟨kv, hkv, hfst⟩ := List.mem_map.mp hmem
      have : dictContains d k = true := by
        unfold dictContains
        rw [List.any_eq_true]
        exact ⟨kv, hkv, beq_iff_eq.mpr hfst⟩
      exact hc this
    rw [List.nodup_append]
    refine ⟨h, List.nodup_singleton k, ?_⟩
    intro a ha hb
    rw [List.mem_singleton] at hb
    exact hk (hb ▸ ha)

theorem keysNodup_foldl_insKV {α : Type} (l : List (String × α)) (d : Dict α)
    (h : (d.map Prod.fst).Nodup) : (((l.foldl insKV d)).map Prod.fst).Nodup := by
  induction l generalizing d with
  | nil => exact h
  | cons x xs ih => exact ih (insKV d x) (keysNodup_dictInsert d x.1 x.2 h)

/-! ### Restructuring the nested build loops into flat lists -/

theorem foldl_nested {σ β γ : Type} (l : List γ) (g : γ → List β) (f : σ → β → σ)
    (init : σ) :
    l.foldl (fun acc x => (g x).foldl f acc) init = (l.flatMap g).foldl f init := by
  induction l generalizing init with
  | nil => rfl
  | cons x xs ih => rw [List.foldl_cons, ih, List.flatMap_cons, List.foldl_append]

theorem foldl_selective {σ β γ : Type} (l : List β) (sel : β → Option γ) (f : σ → γ → σ)
    (step : σ → β → σ)
    (h : ∀ acc x, step acc x = match sel x with | none => acc | some e => f acc e)
    (init : σ) : l.foldl step init = (l.filterMap sel).foldl f init := by
  induction l generalizing init with
  | nil => rfl
  | cons x xs ih =>
    rw [List.foldl_cons, h init x, List.filterMap_cons]
    cases hsel : sel x with
    | none => simp only [hsel, ih]
    | some e => simp only [hsel, List.foldl_cons, ih]

theorem foldl_push {γ : Type} (l : List γ) (init : List γ) :
    l.foldl (fun acc e => acc ++ [e]) init = init ++ l := by
  induction l generalizing init with
  | nil => simp
  | cons x xs ih =>
    rw [List.foldl_cons, ih]
    simp



theorem openapiOps_eq_foldl (spec : SpecDoc) (incl : Bool) :
    openapiOps spec incl = (opPairs spec incl).foldl insKV [] := by
  unfold openapiOps opPairs
  rw [← foldl_nested]
  apply List.foldl_ext
  intro d pi _
  apply foldl_selective
  intro acc m
  cases h : dictGet? pi.2 m with
  | none => simp [opSel, h]
  | some op =>
    by_cases hdep : (!incl && op.deprecated) = true
    · simp [opSel, h, hdep]
    · simp [opSel, h, hdep, insKV]


theorem parse_eq_foldl (ms : List RegTuple) :
    _parse_implemented_endpoints (some ms) = (implPairs ms).foldl insKV [] := by
  unfold _parse_implemented_endpoints implPairs
  rw [List.foldl_map]
  rfl


theorem implNormalized_eq_foldl (implemented : Dict ImplInfo) :
    implNormalized implemented = (implNormPairs implemented).foldl insKV [] := by
  unfold implNormalized implNormPairs
  rw [List.foldl_map]
  rfl

theorem keysNodup_openapiOps (spec : SpecDoc) (incl : Bool) :
    ((openapiOps spec incl).map Prod.fst).Nodup := by
  rw [openapiOps_eq_foldl]
  exact keysNodup_foldl_insKV _ _ (by simp)

theorem keysNodup_parse (src : Option (List RegTuple)) :
    ((_parse_implemented_endpoints src).map Prod.fst).Nodup := by
  cases src with
  | none => simp [_parse_implemented_endpoints]
  | some ms =>
    rw [parse_eq_foldl]
    exact keysNodup_foldl_insKV _ _ (by simp)

/-! ### Membership characterizations for the coverage categories -/

theorem mem_map_sortedBy {α β : Type} (le : α → α → Bool) (l : List α) (f : α → β) (b : β) :
    b ∈ (sortedBy le l).map f ↔ b ∈ l.map f :=
  ((sortedBy_perm le l).map f).mem_iff

theorem nodup_keys_unique {α : Type} {l : List (String × α)} (h : (l.map Prod.fst).Nodup)
    {kv kv' : String × α} (h1 : kv ∈ l) (h2 : kv' ∈ l) (he : kv.1 = kv'.1) : kv = kv' := by
  induction l with
  | nil => cases h1
  | cons x xs ih =>
    rw [List.map_cons, List.nodup_cons] at h
    rcases List.mem_cons.mp h1 with rfl | h1'
    · rcases List.mem_cons.mp h2 with rfl | h2'
      · rfl
      · exact absurd (he ▸ List.mem_map_of_mem Prod.fst h2') h.1
    · rcases List.mem_cons.mp h2 with rfl | h2'
      · exact absurd (he ▸ List.mem_map_of_mem Prod.fst h1') h.1
      · exact ih h.2 h1' h2'

theorem mem_missingOf_key (impl : Dict ImplInfo) (inorm : Dict String)
    (ops : Dict OpRecord) (k : String) :
    k ∈ (missingOf impl inorm ops).map MissingEntry.key ↔
      ∃ kv ∈ ops, kv.1 = k ∧ dictContains impl kv.1 = false ∧
        dictGet? inorm (normKeyOfOp kv.2) = none := by
  rw [List.mem_map]
  constructor
  · rintro ⟨e, he, hek⟩
    rw [missingOf, List.mem_filterMap] at he
    obtain ⟨kv, hkv, hsel⟩ := he
    by_cases hc : dictContains impl kv.1 = true
    · rw [if_pos hc] at hsel
      cases hsel
    · rw [if_neg hc] at hsel
      cases hg : dictGet? inorm (normKeyOfOp kv.2) with
      | some w =>
        rw [hg] at hsel
        cases hsel
      | none =>
        rw [hg] at hsel
        cases hsel
        exact ⟨kv, hkv, hek, Bool.not_eq_true _ ▸ hc, hg⟩
  · rintro ⟨kv, hkv, hk, hc, hg⟩
    refine ⟨⟨kv.1, kv.2.summary, kv.2.tags, kv.2.deprecated⟩, ?_, hk⟩
    rw [missingOf, List.mem_filterMap]
    refine ⟨kv, hkv, ?_⟩
    rw [if_neg (by simp [hc]), hg]

theorem mem_variationsOf_key (impl : Dict ImplInfo) (inorm : Dict String)
    (ops : Dict OpRecord) (k : String) :
    k ∈ (variationsOf impl inorm ops).map VariationEntry.openapi ↔
      ∃ kv ∈ ops, kv.1 = k ∧ dictContains impl kv.1 = false ∧
        (dictGet? inorm (normKeyOfOp kv.2)).isSome := by
  rw [List.mem_map]
  constructor
  · rintro ⟨e, he, hek⟩
    rw [variationsOf, List.mem_filterMap] at he
    obtain ⟨kv, hkv, hsel⟩ := he
    by_cases hc : dictContains impl kv.1 = true
    · rw [if_pos hc] at hsel
      cases hsel
    · rw [if_neg hc] at hsel
      cases hg : dictGet? inorm (normKeyOfOp kv.2) with
      | some w =>
        rw [hg] at hsel
        cases hsel
        exact ⟨kv, hkv, hek, Bool.not_eq_true _ ▸ hc, by rw [hg]; rfl⟩
      | none =>
        rw [hg] at hsel
        cases hsel
  · rintro ⟨kv, hkv, hk, hc, hg⟩
    cases hget : dictGet? inorm (normKeyOfOp kv.2) with
    | none => rw [hget] at hg; cases hg
    | some w =>
      refine ⟨⟨kv.1, w, kv.2.summary, kv.2.tags⟩, ?_, hk⟩
      rw [variationsOf, List.mem_filterMap]
      refine ⟨kv, hkv, ?_⟩
      rw [if_neg (by simp [hc]), hget]

theorem length_partition {β γ δ : Type} (l : List β) (p : β → Bool)
    (f : β → Option γ) (g : β → Option δ)
    (h : ∀ x ∈ l, (p x = true ∧ f x = none ∧ g x = none)
        ∨ (p x = false ∧ (f x).isSome ∧ g x = none)
        ∨ (p x = false ∧ f x = none ∧ (g x).isSome)) :
    l.length = l.countP p + (l.filterMap f).length + (l.filterMap g).length := by
  induction l with
  | nil => rfl
  | cons x xs ih =>
    have hx := h x (List.mem_cons_self x xs)
    have ihx := ih (fun y hy => h y (List.mem_cons_of_mem x hy))
    rcases hx with ⟨hp, hf, hg⟩ | ⟨hp, hf, hg⟩ | ⟨hp, hf, hg⟩
    · rw [List.length_cons, List.countP_cons, List.filterMap_cons, hf, List.filterMap_cons, hg,
        hp, ihx]
      simp
      omega
    · cases hfv : f x with
      | none => rw [hfv] at hf; cases hf
      | some e =>
        rw [List.length_cons, List.countP_cons, List.filterMap_cons, hfv, List.filterMap_cons,
          hg, hp, ihx]
        simp
        omega
    · cases hgv : g x with
      | none => rw [hgv] at hg; cases hg
      | some e =>
        rw [List.length_cons, List.countP_cons, List.filterMap_cons, hf, List.filterMap_cons,
          hgv, hp, ihx]
        simp
        omega

theorem gaps_components (spec : SpecDoc) (reg : Option (List RegTuple)) (incl : Bool) :
    get_coverage_gaps spec reg incl =
      ⟨⟨(openapiOps spec incl).length,
        (_parse_implemented_endpoints reg).length,
        (missingOf (_parse_implemented_endpoints reg)
          (implNormalized (_parse_implemented_endpoints reg)) (openapiOps spec incl)).length,
        (variationsOf (_parse_implemented_endpoints reg)
          (implNormalized (_parse_implemented_endpoints reg)) (openapiOps spec incl)).length,
        (extraOf (_parse_implemented_endpoints reg) (openapiOps spec incl)
          (openapiNormalizedOf (openapiOps spec incl))).length⟩,
       sortedBy (fun a b => strLe a.key b.key)
         (missingOf (_parse_implemented_endpoints reg)
           (implNormalized (_parse_implemented_endpoints reg)) (openapiOps spec incl)),
       sortedBy (fun a b => strLe a.openapi b.openapi)
         (variationsOf (_parse_implemented_endpoints reg)
           (implNormalized (_parse_implemented_endpoints reg)) (openapiOps spec incl)),
       sortedBy (fun a b => strLe a.key b.key)
         (extraOf (_parse_implemented_endpoints reg) (openapiOps spec incl)
           (openapiNormalizedOf (openapiOps spec incl)))⟩ := rfl

theorem mem_missing_keys_iff (spec : SpecDoc) (reg : Option (List RegTuple)) (incl : Bool)
    (kv : String × OpRecord) (hkv : kv ∈ openapiOps spec incl) :
    kv.1 ∈ (get_coverage_gaps spec reg incl).missing.map MissingEntry.key ↔
      dictContains (_parse_implemented_endpoints reg) kv.1 = false ∧
      dictGet? (implNormalized (_parse_implemented_endpoints reg)) (normKeyOfOp kv.2) = none := by
  simp only [gaps_components]
  rw [mem_map_sortedBy, mem_missingOf_key]
  constructor
  · rintro ⟨kv', hkv', he, hc, hg⟩
    have heq : kv' = kv := nodup_keys_unique (keysNodup_openapiOps spec incl) hkv' hkv he
    subst heq
    exact ⟨hc, hg⟩
  · rintro ⟨hc, hg⟩
    exact ⟨kv, hkv, rfl, hc, hg⟩

theorem mem_variation_keys_iff (spec : SpecDoc) (reg : Option (List RegTuple)) (incl : Bool)
    (kv : String × OpRecord) (hkv : kv ∈ openapiOps spec incl) :
    kv.1 ∈ (get_coverage_gaps spec reg incl).pathVariations.map VariationEntry.openapi ↔
      dictContains (_parse_implemented_endpoints reg) kv.1 = false ∧
      (dictGet? (implNormalized (_parse_implemented_endpoints reg))
        (normKeyOfOp kv.2)).isSome := by
  simp only [gaps_components]
  rw [mem_map_sortedBy, mem_variationsOf_key]
  constructor
  · rintro ⟨kv', hkv', he, hc, hg⟩
    have heq : kv' = kv := nodup_keys_unique (keysNodup_openapiOps spec incl) hkv' hkv he
    subst heq
    exact ⟨hc, hg⟩
  · rintro ⟨hc, hg⟩
    exact ⟨kv, hkv, rfl, hc, hg⟩


/-- C1: `get_coverage_gaps` partitions the set of OpenAPI operation keys it
considers (the keys of `openapi_ops`) into exact-matched, path-variation and
missing: every considered key is in exactly one class, every reported missing
or path-variation key is a considered key, and `stats.openApiTotal` equals the
number of exact matches plus `stats.missingCount` plus
`stats.pathVariationsCount`. -/
theorem c1_partition (spec : SpecDoc) (registry : Option (List RegTuple)) (incl : Bool) :
    (∀ kv ∈ openapiOps spec incl,
      exactlyOne (dictContains (_parse_implemented_endpoints registry) kv.1 = true)
        (kv.1 ∈ (get_coverage_gaps spec registry incl).missing.map MissingEntry.key)
        (kv.1 ∈ (get_coverage_gaps spec registry incl).pathVariations.map
          VariationEntry.openapi))
    ∧ (∀ k ∈ (get_coverage_gaps spec registry incl).missing.map MissingEntry.key,
        ∃ v, (k, v) ∈ openapiOps spec incl)
    ∧ (∀ k ∈ (get_coverage_gaps spec registry incl).pathVariations.map
          VariationEntry.openapi,
        ∃ v, (k, v) ∈ openapiOps spec incl)
    ∧ (get_coverage_gaps spec registry incl).stats.openApiTotal =
        (openapiOps spec incl).countP
          (fun kv => dictContains (_parse_implemented_endpoints registry) kv.1)
        + (get_coverage_gaps spec registry incl).stats.missingCount
        + (get_coverage_gaps spec registry incl).stats.pathVariationsCount := by
  refine ⟨?_, ?_, ?_, ?_⟩
  · intro kv hkv
    unfold exactlyOne
    rw [mem_missing_keys_iff spec registry incl kv hkv,
      mem_variation_keys_iff spec registry incl kv hkv]
    by_cases hc : dictContains (_parse_implemented_endpoints registry) kv.1 = true
    · left
      refine ⟨hc, ?_, ?_⟩
      · rintro ⟨hc', _⟩
        rw [hc] at hc'
        cases hc'
      · rintro ⟨hc', _⟩
        rw [hc] at hc'
        cases hc'
    · have hcf : dictContains (_parse_implemented_endpoints registry) kv.1 = false := by
        cases h : dictContains (_parse_implemented_endpoints registry) kv.1
        · rfl
        · exact absurd h hc
      cases hg : dictGet? (implNormalized (_parse_implemented_endpoints registry))
          (normKeyOfOp kv.2) with
      | none =>
        right
        left
        refine ⟨hc, ⟨hcf, rfl⟩, ?_⟩
        rintro ⟨_, hs⟩
        simp at hs
      | some w =>
        right
        right
        refine ⟨hc, ?_, hcf, rfl⟩
        rintro ⟨_, hn⟩
        cases hn
  · intro k hk
    simp only [gaps_components] at hk
    rw [mem_map_sortedBy, mem_missingOf_key] at hk
    obtain ⟨kv, hkv, he, _, _⟩ := hk
    obtain ⟨k1, v1⟩ := kv
    cases he
    exact ⟨v1, hkv⟩
  · intro k hk
    simp only [gaps_components] at hk
    rw [mem_map_sortedBy, mem_variationsOf_key] at hk
    obtain ⟨kv, hkv, he, _, _⟩ := hk
    obtain ⟨k1, v1⟩ := kv
    cases he
    exact ⟨v1, hkv⟩
  · simp only [gaps_components]
    unfold missingOf variationsOf
    apply length_partition
    intro x _
    by_cases hc : dictContains (_parse_implemented_endpoints registry) x.1 = true
    · left
      exact ⟨hc, by rw [if_pos hc], by rw [if_pos hc]⟩
    · cases hg : dictGet? (implNormalized (_parse_implemented_endpoints registry))
          (normKeyOfOp x.2) with
      | none =>
        right
        left
        refine ⟨?_, ?_, ?_⟩
        · cases h : dictContains (_parse_implemented_endpoints registry) x.1
          · rfl
          · exact absurd h hc
        · rw [if_neg hc]
          rfl
        · rw [if_neg hc]
      | some w =>
        right
        right
        refine ⟨?_, ?_, ?_⟩
        · cases h : dictContains (_parse_implemented_endpoints registry) x.1
          · rfl
          · exact absurd h hc
        · rw [if_neg hc]
        · rw [if_neg hc]
          rfl

theorem filterMap_some_eq_map {α β : Type} (f : α → β) (l : List α) :
    l.filterMap (fun x => some (f x)) = l.map f := by
  induction l with
  | nil => rfl
  | cons x xs ih => rw [List.filterMap_cons, List.map_cons, ih]

theorem filterMap_none_eq_nil {α β : Type} (l : List α) :
    l.filterMap (fun _ => (none : Option β)) = [] := by
  induction l with
  | nil => rfl
  | cons x xs ih => rw [List.filterMap_cons, ih]

/-- C7: with the registry file absent, `_parse_implemented_endpoints` returns the
empty dict (without error — the model is total), and `get_coverage_gaps` then
classifies every considered OpenAPI operation as missing, with empty
`pathVariations` and `extra` and `missingCount = openApiTotal`. -/
theorem c7_absent_registry (spec : SpecDoc) (incl : Bool) :
    _parse_implemented_endpoints none = []
    ∧ (get_coverage_gaps spec none incl).pathVariations = []
    ∧ (get_coverage_gaps spec none incl).extra = []
    ∧ (∀ kv ∈ openapiOps spec incl,
        kv.1 ∈ (get_coverage_gaps spec none incl).missing.map MissingEntry.key)
    ∧ (get_coverage_gaps spec none incl).stats.missingCount =
        (get_coverage_gaps spec none incl).stats.openApiTotal := by
  refine ⟨rfl, ?_, ?_, ?_, ?_⟩
  · simp only [gaps_components]
    have hvar : variationsOf (_parse_implemented_endpoints none)
        (implNormalized (_parse_implemented_endpoints none)) (openapiOps spec incl) = [] := by
      unfold variationsOf
      rw [show (fun kv : String × OpRecord =>
            if dictContains (_parse_implemented_endpoints none) kv.1 then none
            else
              match dictGet? (implNormalized (_parse_implemented_endpoints none))
                  (normKeyOfOp kv.2) with
              | some impl_key =>
                some (⟨kv.1, impl_key, kv.2.summary, kv.2.tags⟩ : VariationEntry)
              | none => none) = (fun _ => none) from funext (fun kv => rfl)]
      exact filterMap_none_eq_nil _
    rw [hvar]
    rfl
  · simp only [gaps_components]
    rfl
  · intro kv hkv
    exact (mem_missing_keys_iff spec none incl kv hkv).mpr ⟨rfl, rfl⟩
  · simp only [gaps_components]
    unfold missingOf
    rw [show (fun kv : String × OpRecord =>
          if dictContains (_parse_implemented_endpoints none) kv.1 then none
          else
            match dictGet? (implNormalized (_parse_implemented_endpoints none))
                (normKeyOfOp kv.2) with
            | some _ => none
            | none => some (⟨kv.1, kv.2.summary, kv.2.tags, kv.2.deprecated⟩ : MissingEntry))
        = (fun kv => some (⟨kv.1, kv.2.summary, kv.2.tags, kv.2.deprecated⟩ : MissingEntry))
      from funext (fun kv => rfl)]
    rw [filterMap_some_eq_map]
    exact List.length_map _ _

theorem mem_extraOf_key (impl : Dict ImplInfo) (ops : Dict OpRecord)
    (norm : List String) (k : String) :
    k ∈ (extraOf impl ops norm).map ExtraEntry.key ↔
      (∃ info, (k, info) ∈ impl) ∧ dictContains ops k = false ∧
        norm.contains (normKeyOfImpl k) = false := by
  rw [List.mem_map]
  constructor
  · rintro ⟨e, he, hek⟩
    rw [extraOf, List.mem_filterMap] at he
    obtain ⟨kv, hkv, hsel⟩ := he
    by_cases hc : dictContains ops kv.1 = true
    · rw [if_pos hc] at hsel
      cases hsel
    · rw [if_neg hc] at hsel
      by_cases hn : norm.contains (normKeyOfImpl kv.1) = true
      · rw [if_pos hn] at hsel
        cases hsel
      · rw [if_neg hn] at hsel
        cases hsel
        obtain ⟨k1, v1⟩ := kv
        cases hek
        refine ⟨⟨v1, hkv⟩, ?_, ?_⟩
        · cases h : dictContains ops k1
          · rfl
          · exact absurd h hc
        · cases h : norm.contains (normKeyOfImpl k1)
          · rfl
          · exact absurd h hn
  · rintro ⟨⟨info, hmem⟩, hc, hn⟩
    refine ⟨⟨k, info.api, info.method⟩, ?_, rfl⟩
    rw [extraOf, List.mem_filterMap]
    refine ⟨(k, info), hmem, ?_⟩
    have hc' : ¬(dictContains ops k = true) := by
      rw [hc]
      exact Bool.false_ne_true
    have hn' : ¬(norm.contains (normKeyOfImpl k) = true) := by
      rw [hn]
      exact Bool.false_ne_true
    rw [if_neg hc', if_neg hn']

/-- C5: an implemented record is reported extra exactly when its key is absent
from `openapi_ops` and its normalized key is absent from the set of all
normalized OpenAPI keys; in particular a record whose normalized form matches
some OpenAPI operation is never extra. -/
theorem c5_extra_iff (spec : SpecDoc) (registry : Option (List RegTuple)) (incl : Bool)
    (k : String) :
    (k ∈ (get_coverage_gaps spec registry incl).extra.map ExtraEntry.key ↔
      (∃ info, (k, info) ∈ _parse_implemented_endpoints registry) ∧
      dictContains (openapiOps spec incl) k = false ∧
      (openapiNormalizedOf (openapiOps spec incl)).contains (normKeyOfImpl k) = false)
    ∧ ((openapiNormalizedOf (openapiOps spec incl)).contains (normKeyOfImpl k) = true →
        k ∉ (get_coverage_gaps spec registry incl).extra.map ExtraEntry.key) := by
  have hbase : k ∈ (get_coverage_gaps spec registry incl).extra.map ExtraEntry.key ↔
      (∃ info, (k, info) ∈ _parse_implemented_endpoints registry) ∧
      dictContains (openapiOps spec incl) k = false ∧
      (openapiNormalizedOf (openapiOps spec incl)).contains (normKeyOfImpl k) = false := by
    simp only [gaps_components]
    rw [mem_map_sortedBy, mem_extraOf_key]
  refine ⟨hbase, ?_⟩
  intro hmem hk
  obtain ⟨_, _, hfalse⟩ := hbase.mp hk
  rw [hmem] at hfalse
  cases hfalse

/-- C2 as stated is false: with the registry tuple
`("t", "/tournaments/{broadcastTournamentId}", "lichess", "GetBroadcastTournament")`
the implemented key is `"t /tournaments/{broadcastTournamentId}"` (the first
tuple field is the method part of the key), so the OpenAPI operation
`GET /tournaments/{tournamentId}` finds no normalized match: `pathVariations`
is empty and the operation is reported missing, not paired. -/
theorem c2_counterexample :
    (get_coverage_gaps ⟨[("/tournaments/{tournamentId}", [("get", {})])]⟩
        (some [("t", "/tournaments/{broadcastTournamentId}", "lichess",
          "GetBroadcastTournament")]) false).pathVariations = []
    ∧ (get_coverage_gaps ⟨[("/tournaments/{tournamentId}", [("get", {})])]⟩
        (some [("t", "/tournaments/{broadcastTournamentId}", "lichess",
          "GetBroadcastTournament")]) false).missing.map MissingEntry.key
      = ["GET /tournaments/{tournamentId}"] :=
  ⟨rfl, rfl⟩

/-- C2 amended: with the tuple's first field being the HTTP method `"GET"`,
`get_coverage_gaps` pairs openapi key `GET /tournaments/{tournamentId}` with
implemented key `GET /tournaments/{broadcastTournamentId}` as a path
variation, and `missing` is empty. -/
theorem c2_amended :
    (get_coverage_gaps ⟨[("/tournaments/{tournamentId}", [("get", {})])]⟩
        (some [("GET", "/tournaments/{broadcastTournamentId}", "lichess",
          "GetBroadcastTournament")]) false).pathVariations
      = [⟨"GET /tournaments/{tournamentId}", "GET /tournaments/{broadcastTournamentId}",
          none, []⟩]
    ∧ (get_coverage_gaps ⟨[("/tournaments/{tournamentId}", [("get", {})])]⟩
        (some [("GET", "/tournaments/{broadcastTournamentId}", "lichess",
          "GetBroadcastTournament")]) false).missing = [] :=
  ⟨rfl, rfl⟩

/-- C3 as stated is false: the `collect` closure of `diff_openapi_versions`
iterates every key of each path item, so a path item carrying the (perfectly
legal OpenAPI) key `parameters` contributes the diff key `PARAMETERS /p`,
whose method part is not in the recognized-method set. -/
theorem c3_counterexample :
    (diffDocs ⟨[]⟩ ⟨[("/p", [("parameters", {})])]⟩).1 = ["PARAMETERS /p"]
    ∧ "PARAMETERS" ∉ recognizedMethods.map strUpper :=
  ⟨rfl, by decide⟩


theorem mem_setAdd (s : List String) (k' k : String) :
    k ∈ setAdd s k' ↔ k ∈ s ∨ k = k' := by
  unfold setAdd
  by_cases hc : s.contains k' = true
  · rw [if_pos hc]
    constructor
    · exact Or.inl
    · rintro (h | rfl)
      · exact h
      · exact List.elem_iff.mp hc
  · rw [if_neg hc]
    simp

theorem mem_foldl_setAdd {β : Type} (l : List β) (f : β → String) (init : List String)
    (k : String) :
    k ∈ l.foldl (fun out x => setAdd out (f x)) init ↔ k ∈ init ∨ ∃ x ∈ l, k = f x := by
  induction l generalizing init with
  | nil => simp
  | cons x xs ih =>
    rw [List.foldl_cons, ih, mem_setAdd]
    constructor
    · rintro ((h | h) | ⟨y, hy, hk⟩)
      · exact Or.inl h
      · exact Or.inr ⟨x, List.mem_cons_self x xs, h⟩
      · exact Or.inr ⟨y, List.mem_cons_of_mem x hy, hk⟩
    · rintro (h | ⟨y, hy, hk⟩)
      · exact Or.inl (Or.inl h)
      · rcases List.mem_cons.mp hy with rfl | hy'
        · exact Or.inl (Or.inr hk)
        · exact Or.inr ⟨y, hy', hk⟩

theorem mem_collect (spec : SpecDoc) (k : String) :
    k ∈ collect spec ↔ keyFromDoc spec k := by
  unfold collect keyFromDoc
  suffices h : ∀ (paths : List (String × PathItem)) (init : List String),
      k ∈ paths.foldl
        (fun out pi => pi.2.foldl (fun out kv => setAdd out (_op_key kv.1 pi.1)) out) init ↔
        k ∈ init ∨ ∃ pi ∈ paths, ∃ kv ∈ pi.2, k = _op_key kv.1 pi.1 by
    rw [h spec.paths []]
    simp
  intro paths
  induction paths with
  | nil => simp
  | cons p ps ih =>
    intro init
    rw [List.foldl_cons, ih, mem_foldl_setAdd]
    constructor
    · rintro ((h | ⟨kv, hkv, hk⟩) | ⟨pi, hpi, hex⟩)
      · exact Or.inl h
      · exact Or.inr ⟨p, List.mem_cons_self p ps, kv, hkv, hk⟩
      · exact Or.inr ⟨pi, List.mem_cons_of_mem p hpi, hex⟩
    · rintro (h | ⟨pi, hpi, kv, hkv, hk⟩)
      · exact Or.inl (Or.inl h)
      · rcases List.mem_cons.mp hpi with rfl | hpi'
        · exact Or.inl (Or.inr ⟨kv, hkv, hk⟩)
        · exact Or.inr ⟨pi, hpi', kv, hkv, hk⟩

/-- C3 amended: every key in the `added` (resp. `removed`) list of the
snapshot diff is formed from some key actually present in a path item of the
`to` (resp. `from`) document — including unrecognized, non-method keys, which
are not skipped. -/
theorem c3_amended (A B : SpecDoc) (k : String) :
    (k ∈ (diffDocs A B).1 → keyFromDoc B k) ∧
    (k ∈ (diffDocs A B).2 → keyFromDoc A k) := by
  constructor
  · intro hk
    rw [diffDocs] at hk
    rw [sortedBy_mem] at hk
    have := (List.mem_filter.mp hk).1
    exact (mem_collect B k).mp this
  · intro hk
    rw [diffDocs] at hk
    rw [sortedBy_mem] at hk
    have := (List.mem_filter.mp hk).1
    exact (mem_collect A k).mp this

/-- C8: NotFound conditions surface as structured results: a missing snapshot
on either side makes `diff_openapi_versions` return the error branch
(`ok: False`), and an absent path or absent method-within-path makes
`get_operation` return the not-found branch (`found: False`), each with a
descriptive message — never a raised fault (the model is total). -/
theorem c8_notfound_structured (store : String → Option SpecDoc) (fv tv : String)
    (spec : SpecDoc) (m p : String)
    (h1 : store fv = none ∨ store tv = none)
    (h2 : dictGet? spec.paths p = none ∨
      ∃ item, dictGet? spec.paths p = some item ∧ dictGet? item (strLower m) = none) :
    (∃ e, diff_openapi_versions store fv tv = DiffResult.err e)
    ∧ (∃ e, get_operation spec m p = GetOpResult.notFound e) := by
  constructor
  · cases hf : store fv with
    | none =>
      refine ⟨"Snapshot not found: " ++ snapshotName fv, ?_⟩
      unfold diff_openapi_versions
      rw [hf]
    | some a =>
      have ht : store tv = none := by
        rcases h1 with h | h
        · rw [h] at hf
          cases hf
        · exact h
      refine ⟨"Snapshot not found: " ++ snapshotName tv, ?_⟩
      unfold diff_openapi_versions
      rw [hf, ht]
  · rcases h2 with h | ⟨item, hit, hm⟩
    · refine ⟨"Path not found: " ++ p, ?_⟩
      unfold get_operation
      rw [h]
    · unfold get_operation
      simp only [hit]
      by_cases he : item.isEmpty = true
      · exact ⟨"Path not found: " ++ p, by rw [if_pos he]⟩
      · refine ⟨"Method not found: " ++ strUpper m ++ " " ++ p, ?_⟩
        rw [if_neg he]
        simp only [hm]

theorem charUpper_of_lower_eq (a b : Char) (h : a.toLower = b.toLower) :
    a.toUpper = b.toUpper := by
  have toNatValid : ∀ n : Nat, n.isValidChar → (Char.ofNat n).toNat = n := by
    intro n hn
    simp [Char.ofNat, hn, Char.ofNatAux, Char.toNat, UInt32.toNat, BitVec.toNat_ofNatLt]
  have toNatInj : ∀ x y : Char, x.toNat = y.toNat → x = y := by
    intro x y hxy
    exact Char.eq_of_val_eq (UInt32.toNat.inj hxy)
  unfold Char.toLower at h
  unfold Char.toUpper
  by_cases ha : a.toNat ≥ 65 ∧ a.toNat ≤ 90 <;> by_cases hb : b.toNat ≥ 65 ∧ b.toNat ≤ 90
  · rw [if_pos ha, if_pos hb] at h
    have hv1 : (a.toNat + 32).isValidChar := Or.inl (by omega)
    have hv2 : (b.toNat + 32).isValidChar := Or.inl (by omega)
    have heq : a.toNat + 32 = b.toNat + 32 := by
      rw [← toNatValid _ hv1, ← toNatValid _ hv2, h]
    have hab : a = b := toNatInj a b (by omega)
    rw [hab]
  · rw [if_pos ha, if_neg hb] at h
    have hv1 : (a.toNat + 32).isValidChar := Or.inl (by omega)
    have hbn : b.toNat = a.toNat + 32 := by rw [← h, toNatValid _ hv1]
    rw [if_neg (by omega), if_pos (by omega), hbn]
    have h32 : a.toNat + 32 - 32 = a.toNat := by omega
    rw [h32, Char.ofNat_toNat]
  · rw [if_neg ha, if_pos hb] at h
    have hv2 : (b.toNat + 32).isValidChar := Or.inl (by omega)
    have han : a.toNat = b.toNat + 32 := by rw [h, toNatValid _ hv2]
    rw [if_pos (by omega), if_neg (by omega), han]
    have h32 : b.toNat + 32 - 32 = b.toNat := by omega
    rw [h32, Char.ofNat_toNat]
  · rw [if_neg ha, if_neg hb] at h
    rw [h]

theorem mapUpper_of_mapLower_eq : ∀ (l1 l2 : List Char),
    l1.map Char.toLower = l2.map Char.toLower → l1.map Char.toUpper = l2.map Char.toUpper := by
  intro l1
  induction l1 with
  | nil =>
    intro l2 h
    cases l2 with
    | nil => rfl
    | cons b bs => cases h
  | cons a as ih =>
    intro l2 h
    cases l2 with
    | nil => cases h
    | cons b bs =>
      rw [List.map_cons, List.map_cons] at h ⊢
      injection h with h1 h2
      rw [charUpper_of_lower_eq a b h1, ih bs h2]

theorem strUpper_of_strLower_eq (m m' : String) (h : strLower m = strLower m') :
    strUpper m = strUpper m' := by
  unfold strLower at h
  unfold strUpper
  have hd : m.data.map Char.toLower = m'.data.map Char.toLower := congrArg String.data h
  exact congrArg String.mk (mapUpper_of_mapLower_eq m.data m'.data hd)

/-- C10: `get_operation` is invariant under the casing of its method argument —
any two method strings with the same lowercasing (in particular any two
casings of the same word) produce identical results, since the lookup
lowercases the method and the key and error message uppercase it. -/
theorem c10_method_casing (spec : SpecDoc) (m m' p : String)
    (h : strLower m = strLower m') :
    get_operation spec m p = get_operation spec m' p := by
  have hu := strUpper_of_strLower_eq m m' h
  unfold get_operation _op_key
  rw [h, hu]

/-! ### Key injectivity and provenance, for the deprecated-filtering claim -/

theorem space_sep_inj : ∀ (la lb lp lq : List Char), ' ' ∉ la → ' ' ∉ lb →
    la ++ ' ' :: lp = lb ++ ' ' :: lq → la = lb ∧ lp = lq := by
  intro la
  induction la with
  | nil =>
    intro lb lp lq _ hb h
    cases lb with
    | nil => simpa using h
    | cons b bs =>
      rw [List.nil_append, List.cons_append] at h
      injection h with h1 h2
      exact absurd (by rw [h1]; exact List.mem_cons_self b bs) hb
  | cons a as ih =>
    intro lb lp lq ha hb h
    cases lb with
    | nil =>
      rw [List.cons_append, List.nil_append] at h
      injection h with h1 h2
      exact absurd (by rw [← h1]; exact List.mem_cons_self a as) ha
    | cons b bs =>
      rw [List.cons_append, List.cons_append] at h
      injection h with h1 h2
      have ha' : ' ' ∉ as := fun hmm => ha (List.mem_cons_of_mem a hmm)
      have hb' : ' ' ∉ bs := fun hmm => hb (List.mem_cons_of_mem b hmm)
      obtain ⟨e1, e2⟩ := ih bs lp lq ha' hb' h2
      exact ⟨by rw [h1, e1], e2⟩

theorem str_data_inj (s t : String) (h : s.data = t.data) : s = t := by
  cases s
  cases t
  exact congrArg String.mk h

theorem op_key_data (m p : String) :
    (_op_key m p).data = (strUpper m).data ++ ' ' :: p.data := by
  unfold _op_key
  rw [String.data_append, String.data_append, List.append_assoc]
  rfl

theorem op_key_inj (m m' p p' : String) (hm : m ∈ recognizedMethods)
    (hm' : m' ∈ recognizedMethods) (h : _op_key m p = _op_key m' p') :
    m = m' ∧ p = p' := by
  have hdata : (strUpper m).data ++ ' ' :: p.data = (strUpper m').data ++ ' ' :: p'.data := by
    rw [← op_key_data, ← op_key_data, h]
  have hsp : ' ' ∉ (strUpper m).data := by
    fin_cases hm <;> decide
  have hsp' : ' ' ∉ (strUpper m').data := by
    fin_cases hm' <;> decide
  obtain ⟨h1, h2⟩ := space_sep_inj _ _ _ _ hsp hsp' hdata
  refine ⟨?_, str_data_inj p p' h2⟩
  fin_cases hm <;> fin_cases hm' <;> first | rfl | exact absurd h1 (by decide)

theorem find?_eq_some_of_unique {α : Type} (l : List α) (pr : α → Bool) (a : α)
    (hmem : a ∈ l) (hp : pr a = true) (huniq : ∀ x ∈ l, pr x = true → x = a) :
    l.find? pr = some a := by
  induction l with
  | nil => cases hmem
  | cons x xs ih =>
    by_cases hx : pr x = true
    · rw [List.find?_cons_of_pos _ hx, huniq x (List.mem_cons_self x xs) hx]
    · rw [List.find?_cons_of_neg _ hx]
      rcases List.mem_cons.mp hmem with rfl | hmem'
      · exact absurd hp hx
      · exact ih hmem' (fun y hy hpy => huniq y (List.mem_cons_of_mem x hy) hpy)

theorem mem_dictInsert {α : Type} (d : Dict α) (k : String) (v : α) (kv : String × α)
    (h : kv ∈ dictInsert d k v) : kv = (k, v) ∨ kv ∈ d := by
  unfold dictInsert at h
  by_cases hc : dictContains d k = true
  · rw [if_pos hc] at h
    obtain ⟨y, hy, heq⟩ := List.mem_map.mp h
    by_cases hyk : (y.1 == k) = true
    · rw [if_pos hyk] at heq
      exact Or.inl heq.symm
    · rw [if_neg hyk] at heq
      exact Or.inr (heq ▸ hy)
  · rw [if_neg hc] at h
    rcases List.mem_append.mp h with h | h
    · exact Or.inr h
    · exact Or.inl (List.mem_singleton.mp h)

theorem mem_foldl_insKV_subset {α : Type} (l : List (String × α)) (d : Dict α)
    (kv : String × α) (h : kv ∈ l.foldl insKV d) : kv ∈ d ∨ kv ∈ l := by
  induction l generalizing d with
  | nil => exact Or.inl h
  | cons x xs ih =>
    rcases ih (insKV d x) h with hd | hl
    · rcases mem_dictInsert d x.1 x.2 kv hd with heq | hmem
      · right
        rw [heq]
        exact List.mem_cons_self x xs
      · exact Or.inl hmem
    · exact Or.inr (List.mem_cons_of_mem x hl)

theorem mem_opPairs (spec : SpecDoc) (incl : Bool) (kv : String × OpRecord) :
    kv ∈ opPairs spec incl ↔ ∃ pi ∈ spec.paths, ∃ mm ∈ recognizedMethods,
      opSel incl pi mm = some kv := by
  unfold opPairs
  rw [List.mem_flatMap]
  constructor
  · rintro ⟨pi, hpi, hmem⟩
    obtain ⟨mm, hmm, hsel⟩ := List.mem_filterMap.mp hmem
    exact ⟨pi, hpi, mm, hmm, hsel⟩
  · rintro ⟨pi, hpi, mm, hmm, hsel⟩
    exact ⟨pi, hpi, List.mem_filterMap.mpr ⟨mm, hmm, hsel⟩⟩

theorem opSel_some (incl : Bool) (pi : String × PathItem) (mm : String)
    (kv : String × OpRecord) (h : opSel incl pi mm = some kv) :
    ∃ op', dictGet? pi.2 mm = some op' ∧ (!incl && op'.deprecated) = false ∧
      kv = (_op_key mm pi.1,
        ⟨_op_key mm pi.1, pi.1, strUpper mm, op'.summary, op'.tags, op'.deprecated,
         _normalize_path pi.1⟩) := by
  unfold opSel at h
  cases hg : dictGet? pi.2 mm with
  | none =>
    simp only [hg] at h
    cases h
  | some op' =>
    simp only [hg] at h
    by_cases hd : (!incl && op'.deprecated) = true
    · rw [if_pos hd] at h
      cases h
    · rw [if_neg hd] at h
      injection h with h
      refine ⟨op', rfl, ?_, h.symm⟩
      cases hb : (!incl && op'.deprecated)
      · rfl
      · exact absurd hb hd



theorem list_operations_eq (spec : SpecDoc) (tag : Option String) (incl : Bool) :
    list_operations spec tag incl =
      ⟨(sortedBy (fun a b => strLe a.key b.key) (listedFlat spec tag incl)).length,
       sortedBy (fun a b => strLe a.key b.key) (listedFlat spec tag incl)⟩ := by
  have hops : spec.paths.foldl (fun acc pi =>
      recognizedMethods.foldl (fun acc method =>
        match dictGet? pi.2 method with
        | none => acc
        | some op =>
          if !incl && op.deprecated then acc
          else if tagSkip tag op.tags then acc
          else acc ++ [⟨_op_key method pi.1, op.summary, op.tags, op.deprecated⟩]) acc) []
      = listedFlat spec tag incl := by
    unfold listedFlat
    have step1 : spec.paths.foldl (fun acc pi =>
        recognizedMethods.foldl (fun acc method =>
          match dictGet? pi.2 method with
          | none => acc
          | some op =>
            if !incl && op.deprecated then acc
            else if tagSkip tag op.tags then acc
            else acc ++ [⟨_op_key method pi.1, op.summary, op.tags, op.deprecated⟩]) acc) []
        = spec.paths.foldl (fun acc pi =>
            (recognizedMethods.filterMap (listedSel tag incl pi)).foldl
              (fun a e => a ++ [e]) acc) [] := by
      apply List.foldl_ext
      intro acc pi _
      apply foldl_selective
      intro a x
      cases h : dictGet? pi.2 x with
      | none => simp [listedSel, h]
      | some op =>
        by_cases hd : (!incl && op.deprecated) = true
        · simp [listedSel, h, hd]
        · by_cases hts : tagSkip tag op.tags = true
          · simp [listedSel, h, hd, hts]
          · simp [listedSel, h, hd, hts]
    rw [step1, foldl_nested, foldl_push, List.nil_append]
  simp only [list_operations]
  rw [hops]

theorem listedSel_some (tag : Option String) (incl : Bool) (pi : String × PathItem)
    (mm : String) (e : ListedOp) (h : listedSel tag incl pi mm = some e) :
    ∃ op', dictGet? pi.2 mm = some op' ∧ (!incl && op'.deprecated) = false ∧
      tagSkip tag op'.tags = false ∧
      e = ⟨_op_key mm pi.1, op'.summary, op'.tags, op'.deprecated⟩ := by
  unfold listedSel at h
  cases hg : dictGet? pi.2 mm with
  | none =>
    simp only [hg] at h
    cases h
  | some op' =>
    simp only [hg] at h
    by_cases hd : (!incl && op'.deprecated) = true
    · rw [if_pos hd] at h
      cases h
    · rw [if_neg hd] at h
      by_cases hts : tagSkip tag op'.tags = true
      · rw [if_pos hts] at h
        cases h
      · rw [if_neg hts] at h
        injection h with h
        refine ⟨op', rfl, ?_, ?_, h.symm⟩
        · cases hb : (!incl && op'.deprecated)
          · rfl
          · exact absurd hb hd
        · cases hb : tagSkip tag op'.tags
          · rfl
          · exact absurd hb hts

/-- C6: a deprecated operation is excluded from `list_operations` (under any
tag filter) and from the OpenAPI-side universe of `get_coverage_gaps` when
`include_deprecated` is false — its key is absent from `openapi_ops`, hence
not counted in `openApiTotal`, and absent from `missing` and
`pathVariations` — and it is included with its `deprecated` field true when
`include_deprecated` is true. -/
theorem c6_deprecated_filtering (spec : SpecDoc) (p : String) (item : PathItem)
    (m : String) (op : Operation) (tag : Option String)
    (registry : Option (List RegTuple))
    (hN : (spec.paths.map Prod.fst).Nodup)
    (hpi : (p, item) ∈ spec.paths)
    (hm : m ∈ recognizedMethods)
    (hop : dictGet? item m = some op)
    (hdep : op.deprecated = true) :
    (∀ e ∈ (list_operations spec tag false).operations, e.key ≠ _op_key m p)
    ∧ dictContains (openapiOps spec false) (_op_key m p) = false
    ∧ _op_key m p ∉ (get_coverage_gaps spec registry false).missing.map MissingEntry.key
    ∧ _op_key m p ∉
        (get_coverage_gaps spec registry false).pathVariations.map VariationEntry.openapi
    ∧ (∃ r, dictGet? (openapiOps spec true) (_op_key m p) = some r ∧ r.deprecated = true)
    ∧ (∃ e ∈ (list_operations spec none true).operations,
        e.key = _op_key m p ∧ e.deprecated = true) := by
  have huniq_pi : ∀ pi' ∈ spec.paths, ∀ m' ∈ recognizedMethods,
      _op_key m' pi'.1 = _op_key m p → pi' = (p, item) ∧ m' = m := by
    intro pi' hpi' m' hm' hkey
    obtain ⟨hmeq, hpeq⟩ := op_key_inj m' m pi'.1 p hm' hm hkey
    refine ⟨nodup_keys_unique hN hpi' hpi hpeq, hmeq⟩
  have hnoneF : ∀ kv ∈ opPairs spec false, kv.1 ≠ _op_key m p := by
    rintro kv hkv hkey
    obtain ⟨pi', hpi', m', hm', hsel⟩ := (mem_opPairs spec false kv).mp hkv
    obtain ⟨op', hget', hflag, hkv_eq⟩ := opSel_some false pi' m' kv hsel
    have hkey' : _op_key m' pi'.1 = _op_key m p := by
      rw [hkv_eq] at hkey
      exact hkey
    obtain ⟨hpieq, hmeq⟩ := huniq_pi pi' hpi' m' hm' hkey'
    rw [hpieq, hmeq] at hget'
    have hget'' : dictGet? item m = some op' := hget'
    rw [hop] at hget''
    injection hget'' with heq
    have hfl : op'.deprecated = false := by simpa using hflag
    rw [← heq, hdep] at hfl
    cases hfl
  have hcontF : dictContains (openapiOps spec false) (_op_key m p) = false := by
    rw [dictContains_eq_false]
    intro v hv
    rw [openapiOps_eq_foldl] at hv
    rcases mem_foldl_insKV_subset (opPairs spec false) [] (_op_key m p, v) hv with h0 | h0
    · cases h0
    · exact hnoneF _ h0 rfl
  have hmissF : _op_key m p ∉
      (get_coverage_gaps spec registry false).missing.map MissingEntry.key := by
    intro hmem
    simp only [gaps_components] at hmem
    rw [mem_map_sortedBy, mem_missingOf_key] at hmem
    obtain ⟨kv, hkv, hke, _, _⟩ := hmem
    have hc : dictContains (openapiOps spec false) (_op_key m p) = true := by
      rw [dictContains_iff]
      refine ⟨kv.2, ?_⟩
      rw [← hke]
      exact hkv
    rw [hcontF] at hc
    cases hc
  have hvarF : _op_key m p ∉
      (get_coverage_gaps spec registry false).pathVariations.map VariationEntry.openapi := by
    intro hmem
    simp only [gaps_components] at hmem
    rw [mem_map_sortedBy, mem_variationsOf_key] at hmem
    obtain ⟨kv, hkv, hke, _, _⟩ := hmem
    have hc : dictContains (openapiOps spec false) (_op_key m p) = true := by
      rw [dictContains_iff]
      refine ⟨kv.2, ?_⟩
      rw [← hke]
      exact hkv
    rw [hcontF] at hc
    cases hc
  have hlistF : ∀ e ∈ (list_operations spec tag false).operations,
      e.key ≠ _op_key m p := by
    intro e he hkey
    rw [list_operations_eq] at he
    have he' : e ∈ sortedBy (fun a b => strLe a.key b.key) (listedFlat spec tag false) := he
    rw [sortedBy_mem] at he'
    obtain ⟨pi', hpi', hfm⟩ := List.mem_flatMap.mp he'
    obtain ⟨m', hm', hsel⟩ := List.mem_filterMap.mp hfm
    obtain ⟨op', hget', hflag, _, he_eq⟩ := listedSel_some tag false pi' m' e hsel
    have hkey' : _op_key m' pi'.1 = _op_key m p := by
      rw [he_eq] at hkey
      exact hkey
    obtain ⟨hpieq, hmeq⟩ := huniq_pi pi' hpi' m' hm' hkey'
    rw [hpieq, hmeq] at hget'
    have hget'' : dictGet? item m = some op' := hget'
    rw [hop] at hget''
    injection hget'' with heq
    have hfl : op'.deprecated = false := by simpa using hflag
    rw [← heq, hdep] at hfl
    cases hfl
  have hselT : opSel true (p, item) m =
      some (_op_key m p,
        ⟨_op_key m p, p, strUpper m, op.summary, op.tags, op.deprecated,
         _normalize_path p⟩) := by
    unfold opSel
    have hop' : dictGet? (p, item).2 m = some op := hop
    simp only [hop']
    rfl
  have hmemT : (_op_key m p,
      (⟨_op_key m p, p, strUpper m, op.summary, op.tags, op.deprecated,
        _normalize_path p⟩ : OpRecord)) ∈ opPairs spec true :=
    (mem_opPairs spec true _).mpr ⟨(p, item), hpi, m, hm, hselT⟩
  have huniqT : ∀ x ∈ opPairs spec true, (x.1 == _op_key m p) = true →
      x = (_op_key m p,
        ⟨_op_key m p, p, strUpper m, op.summary, op.tags, op.deprecated,
         _normalize_path p⟩) := by
    intro x hx hbeq
    obtain ⟨pi', hpi', m', hm', hsel⟩ := (mem_opPairs spec true x).mp hx
    obtain ⟨op', hget', hflag, hx_eq⟩ := opSel_some true pi' m' x hsel
    have hkey' : _op_key m' pi'.1 = _op_key m p := by
      rw [hx_eq] at hbeq
      exact beq_iff_eq.mp hbeq
    obtain ⟨hpieq, hmeq⟩ := huniq_pi pi' hpi' m' hm' hkey'
    rw [hpieq, hmeq] at hget' hx_eq
    have hget'' : dictGet? item m = some op' := hget'
    rw [hop] at hget''
    injection hget'' with heq
    rw [← heq] at hx_eq
    exact hx_eq
  have hgetT : dictGet? (openapiOps spec true) (_op_key m p) =
      some (⟨_op_key m p, p, strUpper m, op.summary, op.tags, op.deprecated,
        _normalize_path p⟩ : OpRecord) := by
    rw [openapiOps_eq_foldl, dictGet?_foldl_insKV]
    have hfind : (opPairs spec true).reverse.find? (fun kv => kv.1 == _op_key m p)
        = some (_op_key m p,
            ⟨_op_key m p, p, strUpper m, op.summary, op.tags, op.deprecated,
             _normalize_path p⟩) := by
      apply find?_eq_some_of_unique
      · exact List.mem_reverse.mpr hmemT
      · exact beq_iff_eq.mpr rfl
      · intro x hx hbeq
        exact huniqT x (List.mem_reverse.mp hx) hbeq
    rw [hfind]
    rfl
  have hlistT : ∃ e ∈ (list_operations spec none true).operations,
      e.key = _op_key m p ∧ e.deprecated = true := by
    refine ⟨⟨_op_key m p, op.summary, op.tags, op.deprecated⟩, ?_, rfl, hdep⟩
    rw [list_operations_eq]
    show _ ∈ sortedBy (fun a b => strLe a.key b.key) (listedFlat spec none true)
    rw [sortedBy_mem]
    apply List.mem_flatMap.mpr
    refine ⟨(p, item), hpi, List.mem_filterMap.mpr ⟨m, hm, ?_⟩⟩
    unfold listedSel
    have hop' : dictGet? (p, item).2 m = some op := hop
    simp only [hop']
    rfl
  exact ⟨hlistF, hcontF, hmissF, hvarF,
    ⟨⟨_op_key m p, p, strUpper m, op.summary, op.tags, op.deprecated,
      _normalize_path p⟩, hgetT, hdep⟩, hlistT⟩

/-- Witness for the partition theorem at a one-operation spec and a matching
registry. -/
theorem c1_partition_witness :
    exactlyOne
      (dictContains (_parse_implemented_endpoints (some [("GET", "/a", "lichess", "GetA")]))
        "GET /a" = true)
      ("GET /a" ∈ (get_coverage_gaps ⟨[("/a", [("get", {})])]⟩
          (some [("GET", "/a", "lichess", "GetA")]) false).missing.map MissingEntry.key)
      ("GET /a" ∈ (get_coverage_gaps ⟨[("/a", [("get", {})])]⟩
          (some [("GET", "/a", "lichess", "GetA")]) false).pathVariations.map
          VariationEntry.openapi) :=
  (c1_partition ⟨[("/a", [("get", {})])]⟩ (some [("GET", "/a", "lichess", "GetA")])
      false).1
    ("GET /a", ⟨"GET /a", "/a", "GET", none, [], false, "/a"⟩) (by decide)

/-- Witness for the amended diff-key provenance theorem at a concrete snapshot
pair. -/
theorem c3_amended_witness :
    keyFromDoc ⟨[("/p", [("parameters", {})])]⟩ "PARAMETERS /p" :=
  (c3_amended ⟨[]⟩ ⟨[("/p", [("parameters", {})])]⟩ "PARAMETERS /p").1 (by decide)

/-- Witness for the extra-classification theorem: a registry-only endpoint is
reported extra. -/
theorem c5_extra_witness :
    "GET /explorer/lookup" ∈ (get_coverage_gaps ⟨[("/a", [("get", {})])]⟩
        (some [("GET", "/explorer/lookup", "explorer", "Lookup")]) false).extra.map
        ExtraEntry.key :=
  ((c5_extra_iff ⟨[("/a", [("get", {})])]⟩
      (some [("GET", "/explorer/lookup", "explorer", "Lookup")]) false
      "GET /explorer/lookup").1).mpr
    ⟨⟨⟨"explorer", "Lookup", "/explorer/lookup"⟩, by decide⟩, by decide, by decide⟩

/-- Witness for the deprecated-filtering theorem at a one-operation deprecated
spec. -/
theorem c6_witness :
    dictContains (openapiOps ⟨[("/a", [("get", { deprecated := true })])]⟩ false)
      (_op_key "get" "/a") = false :=
  (c6_deprecated_filtering ⟨[("/a", [("get", { deprecated := true })])]⟩ "/a"
      [("get", { deprecated := true })] "get" { deprecated := true } none none
      (by decide) (by decide) (by decide) (by decide) rfl).2.1

/-- Witness for the absent-registry theorem at the two-operation spec of the
empty-registry scenario. -/
theorem c7_witness :
    "GET /a" ∈ (get_coverage_gaps ⟨[("/a", [("get", {})]), ("/b", [("post", {})])]⟩
        none false).missing.map MissingEntry.key :=
  (c7_absent_registry ⟨[("/a", [("get", {})]), ("/b", [("post", {})])]⟩ false).2.2.2.1
    ("GET /a", ⟨"GET /a", "/a", "GET", none, [], false, "/a"⟩) (by decide)

/-- Witness for the structured-NotFound theorem: an empty snapshot store and an
empty spec. -/
theorem c8_witness :
    (∃ e, diff_openapi_versions (fun _ => none) "1" "2" = DiffResult.err e)
    ∧ (∃ e, get_operation ⟨[]⟩ "get" "/x" = GetOpResult.notFound e) :=
  c8_notfound_structured (fun _ => none) "1" "2" ⟨[]⟩ "get" "/x" (Or.inl rfl) (Or.inl rfl)

/-- Witness for method-casing invariance at the casing pair GeT and get. -/
theorem c10_witness :
    get_operation ⟨[("/a", [("get", {})])]⟩ "GeT" "/a" =
      get_operation ⟨[("/a", [("get", {})])]⟩ "get" "/a" :=
  c10_method_casing ⟨[("/a", [("get", {})])]⟩ "GeT" "get" "/a" (by decide)
